import Mathlib

/-!
Verification of the multiple-gusts driver script
(test_scripts/TestScript2_MultGustsPlots.py) of the amiet_tools package.

The script computes far-field directivities by summing, over a sampled grid
of spanwise wavenumbers (gusts), the contribution of each gust to two
per-observer-set accumulators.  The library functions it calls
(create_airf_mesh, Phi_2D, delta_p, dipole3D) are external to the shown
source and are treated as black boxes: the pressure-jump vectors and the
dipole Green function matrices they return are universally quantified.

Real arithmetic of the script is embedded over the real and complex numbers.
-/

namespace AmietTest2

open scoped Matrix ComplexOrder

/-! ### Scalar constants of the script -/

/-- airfoil half chord in meters, from the script. -/
noncomputable def b : ℝ := 0.075

/-- flow velocity in meters per second, from the script. -/
noncomputable def Ux : ℝ := 60

/-- speed of sound in meters per second, from the script. -/
noncomputable def c0 : ℝ := 340

/-- reduced frequency selected in the script (the uncommented choice). -/
noncomputable def kc : ℝ := 0.5

/-- operating frequency in hertz: f0 = kc*c0/(2*pi*(2*b)). -/
noncomputable def f0 : ℝ := kc * c0 / (2 * Real.pi * (2 * b))

/-! ### Wavenumber sampler

The script computes ky_T = 2*pi/d and branches on ky_crit < ky_T:
in the low-frequency regime it uses np.linspace(-ky_T, ky_T, 41), otherwise
N_ky = int(ceil((2*ky_crit/ky_T)*20)) + 1 points on [-ky_crit, ky_crit].
We embed the sampler as a function of ky_crit and ky_T, since both are
computed upstream from the physical parameters. -/

/-- the spanwise periodicity wavenumber ky_T = 2*pi/d computed by the script
from the half span d. -/
noncomputable def ky_T_of (d : ℝ) : ℝ := 2 * Real.pi / d

/-- np.linspace(a, c, n): n uniformly spaced points from a to c inclusive;
point i is a + i*(c - a)/(n - 1). -/
noncomputable def linspace (a c : ℝ) (n : ℕ) (i : ℕ) : ℝ :=
  a + i * ((c - a) / ((n : ℝ) - 1))

/-- number of sampled gusts: 41 in the low-frequency regime, otherwise
int(ceil((2*ky_crit/ky_T)*20)) + 1. -/
noncomputable def N_ky (ky_crit ky_T : ℝ) : ℕ :=
  if ky_crit < ky_T then 41
  else (Int.ceil ((2 * ky_crit / ky_T) * 20)).toNat + 1

/-- the sampled spanwise wavenumber grid Ky (as a function of the index). -/
noncomputable def Ky (ky_crit ky_T : ℝ) (i : ℕ) : ℝ :=
  if ky_crit < ky_T then linspace (-ky_T) ky_T (N_ky ky_crit ky_T) i
  else linspace (-ky_crit) ky_crit (N_ky ky_crit ky_T) i

/-- the wavenumber bin width computed by the script from the realized grid:
dky = Ky[1] - Ky[0]. -/
noncomputable def dky (ky_crit ky_T : ℝ) : ℝ :=
  Ky ky_crit ky_T 1 - Ky ky_crit ky_T 0

/-! ### Helper lemmas about the sampler -/

lemma linspace_zero (a c : ℝ) (n : ℕ) : linspace a c n 0 = a := by
  simp [linspace]

lemma linspace_step (a c : ℝ) (n : ℕ) (i : ℕ) :
    linspace a c n (i + 1) - linspace a c n i = (c - a) / ((n : ℝ) - 1) := by
  simp only [linspace]
  push_cast
  ring

lemma linspace_last (a c : ℝ) (n : ℕ) (hn : 2 ≤ n) :
    linspace a c n (n - 1) = c := by
  have h1 : (1 : ℕ) ≤ n := le_trans (by norm_num) hn
  have hcast : ((n - 1 : ℕ) : ℝ) = (n : ℝ) - 1 := by
    push_cast [Nat.cast_sub h1]
    ring
  have hne : ((n : ℝ) - 1) ≠ 0 := by
    have : (2 : ℝ) ≤ (n : ℝ) := by exact_mod_cast hn
    linarith
  simp only [linspace, hcast]
  field_simp

lemma N_ky_low {ky_crit ky_T : ℝ} (h : ky_crit < ky_T) :
    N_ky ky_crit ky_T = 41 := by
  simp [N_ky, h]

lemma N_ky_high {ky_crit ky_T : ℝ} (h : ¬ ky_crit < ky_T) :
    N_ky ky_crit ky_T = (Int.ceil ((2 * ky_crit / ky_T) * 20)).toNat + 1 := by
  simp [N_ky, h]

lemma ceil_arg_ge_40 {ky_crit ky_T : ℝ} (hT : 0 < ky_T) (h : ky_T ≤ ky_crit) :
    (40 : ℝ) ≤ (2 * ky_crit / ky_T) * 20 := by
  have h2 : (2 : ℝ) ≤ 2 * ky_crit / ky_T := by
    rw [le_div_iff₀ hT]
    linarith
  linarith

lemma ceil_toNat_ge_40 {ky_crit ky_T : ℝ} (hT : 0 < ky_T) (h : ky_T ≤ ky_crit) :
    40 ≤ (Int.ceil ((2 * ky_crit / ky_T) * 20)).toNat := by
  have h40 : (40 : ℤ) ≤ Int.ceil ((2 * ky_crit / ky_T) * 20) := by
    have := le_trans (ceil_arg_ge_40 hT h) (Int.le_ceil ((2 * ky_crit / ky_T) * 20))
    exact_mod_cast this
  exact_mod_cast Int.toNat_le_toNat h40

lemma N_ky_high_ge_41 {ky_crit ky_T : ℝ} (hT : 0 < ky_T) (h : ¬ ky_crit < ky_T) :
    41 ≤ N_ky ky_crit ky_T := by
  rw [N_ky_high h]
  have := ceil_toNat_ge_40 hT (not_lt.mp h)
  omega

lemma ceil_toNat_cast_ge {ky_crit ky_T : ℝ} (hT : 0 < ky_T) (h : ky_T ≤ ky_crit) :
    (2 * ky_crit / ky_T) * 20 ≤ ((Int.ceil ((2 * ky_crit / ky_T) * 20)).toNat : ℝ) := by
  have h0 : (0 : ℤ) ≤ Int.ceil ((2 * ky_crit / ky_T) * 20) := by
    have := ceil_toNat_ge_40 hT h
    omega
  have h1 : (((Int.ceil ((2 * ky_crit / ky_T) * 20)).toNat : ℕ) : ℝ) =
      ((Int.ceil ((2 * ky_crit / ky_T) * 20) : ℤ) : ℝ) := by
    exact_mod_cast congrArg (fun z : ℤ => (z : ℝ)) (Int.toNat_of_nonneg h0)
  rw [h1]
  exact Int.le_ceil _

lemma dky_eq (ky_crit ky_T : ℝ) :
    dky ky_crit ky_T =
      (if ky_crit < ky_T then (2 * ky_T) / ((N_ky ky_crit ky_T : ℝ) - 1)
       else (2 * ky_crit) / ((N_ky ky_crit ky_T : ℝ) - 1)) := by
  unfold dky Ky
  by_cases h : ky_crit < ky_T
  · simp only [h, if_true]
    have := linspace_step (-ky_T) ky_T (N_ky ky_crit ky_T) 0
    simpa [sub_neg_eq_add, two_mul] using this
  · simp only [h, if_false]
    have := linspace_step (-ky_crit) ky_crit (N_ky ky_crit ky_T) 0
    simpa [sub_neg_eq_add, two_mul] using this

/-! ### Claims about the sampler -/

/-- C3: if ky_crit < ky_T the grid is exactly 41 uniformly spaced points
spanning [-ky_T, ky_T]; otherwise it is
N_ky = ceil((2*ky_crit/ky_T)*20) + 1 uniformly spaced points spanning
[-ky_crit, ky_crit], both endpoints included, with realized spacing at most
ky_T/20. -/
theorem ky_grid_regime_selection (ky_crit ky_T : ℝ) (hT : 0 < ky_T) :
    (ky_crit < ky_T →
      N_ky ky_crit ky_T = 41 ∧
      Ky ky_crit ky_T 0 = -ky_T ∧
      Ky ky_crit ky_T 40 = ky_T ∧
      (∀ i : ℕ, i + 1 < 41 →
        Ky ky_crit ky_T (i + 1) - Ky ky_crit ky_T i = 2 * ky_T / 40)) ∧
    (¬ ky_crit < ky_T →
      N_ky ky_crit ky_T = (Int.ceil ((2 * ky_crit / ky_T) * 20)).toNat + 1 ∧
      Ky ky_crit ky_T 0 = -ky_crit ∧
      Ky ky_crit ky_T (N_ky ky_crit ky_T - 1) = ky_crit ∧
      (∀ i : ℕ, i + 1 < N_ky ky_crit ky_T →
        Ky ky_crit ky_T (i + 1) - Ky ky_crit ky_T i =
          2 * ky_crit / ((N_ky ky_crit ky_T : ℝ) - 1)) ∧
      2 * ky_crit / ((N_ky ky_crit ky_T : ℝ) - 1) ≤ ky_T / 20) := by
  constructor
  · intro h
    have hN : N_ky ky_crit ky_T = 41 := N_ky_low h
    refine ⟨hN, ?_, ?_, ?_⟩
    · simp [Ky, h, linspace_zero]
    · have := linspace_last (-ky_T) ky_T 41 (by norm_num)
      simp only [Ky, h, if_true, hN]
      simpa using this
    · intro i _
      simp only [Ky, h, if_true, hN]
      rw [linspace_step]
      norm_num
      ring
  · intro h
    have hle : ky_T ≤ ky_crit := not_lt.mp h
    have hc : 0 < ky_crit := lt_of_lt_of_le hT hle
    have hN41 : 41 ≤ N_ky ky_crit ky_T := N_ky_high_ge_41 hT h
    have hNcast : (41 : ℝ) ≤ (N_ky ky_crit ky_T : ℝ) := by exact_mod_cast hN41
    have hden : (0 : ℝ) < (N_ky ky_crit ky_T : ℝ) - 1 := by linarith
    refine ⟨N_ky_high h, ?_, ?_, ?_, ?_⟩
    · simp [Ky, h, linspace_zero]
    · simp only [Ky, h, if_false]
      exact linspace_last (-ky_crit) ky_crit (N_ky ky_crit ky_T) (by omega)
    · intro i _
      simp only [Ky, h, if_false]
      rw [linspace_step]
      ring_nf
    · have harg : (2 * ky_crit / ky_T) * 20 ≤ ((N_ky ky_crit ky_T : ℝ) - 1) := by
        have h1 := ceil_toNat_cast_ge hT hle
        have h2 : ((N_ky ky_crit ky_T : ℝ) - 1) =
            ((Int.ceil ((2 * ky_crit / ky_T) * 20)).toNat : ℝ) := by
          rw [N_ky_high h]
          push_cast
          ring
        linarith
      have hargpos : (0 : ℝ) < (2 * ky_crit / ky_T) * 20 := by positivity
      have step1 : 2 * ky_crit / ((N_ky ky_crit ky_T : ℝ) - 1) ≤
          2 * ky_crit / ((2 * ky_crit / ky_T) * 20) := by
        gcongr
      have step2 : 2 * ky_crit / ((2 * ky_crit / ky_T) * 20) = ky_T / 20 := by
        field_simp
        ring
      linarith [step1, step2.le, step2.ge]

/-- C3 witness: instantiation at ky_crit = 1, ky_T = 2 (low-frequency branch
applies) and the hypothesis 0 < 2 holds. -/
theorem ky_grid_regime_selection_witness :
    (0 : ℝ) < 2 ∧
    ((1 : ℝ) < 2 →
      N_ky 1 2 = 41 ∧
      Ky 1 2 0 = -2 ∧
      Ky 1 2 40 = 2 ∧
      (∀ i : ℕ, i + 1 < 41 → Ky 1 2 (i + 1) - Ky 1 2 i = 2 * 2 / 40)) ∧
    (¬ (1 : ℝ) < 2 →
      N_ky 1 2 = (Int.ceil ((2 * 1 / 2 : ℝ) * 20)).toNat + 1 ∧
      Ky 1 2 0 = -1 ∧
      Ky 1 2 (N_ky 1 2 - 1) = 1 ∧
      (∀ i : ℕ, i + 1 < N_ky 1 2 →
        Ky 1 2 (i + 1) - Ky 1 2 i = 2 * 1 / ((N_ky 1 2 : ℝ) - 1)) ∧
      2 * 1 / ((N_ky 1 2 : ℝ) - 1) ≤ 2 / 20) :=
  ⟨two_pos, (ky_grid_regime_selection 1 2 two_pos).1,
    (ky_grid_regime_selection 1 2 two_pos).2⟩

/-- C4: at the boundary ky_crit = ky_T the high-frequency branch is taken
with N_T = 2, giving N_ky = ceil(40) + 1 = 41 points with endpoints exactly
-ky_T and ky_T, and pointwise the grid coincides with the low-frequency grid
linspace(-ky_T, ky_T, 41). -/
theorem ky_grid_boundary_case (ky_T : ℝ) (hT : 0 < ky_T) :
    N_ky ky_T ky_T = 41 ∧
    Ky ky_T ky_T 0 = -ky_T ∧
    Ky ky_T ky_T 40 = ky_T ∧
    (∀ i : ℕ, Ky ky_T ky_T i = linspace (-ky_T) ky_T 41 i) := by
  have hne : ky_T ≠ 0 := ne_of_gt hT
  have harg : (2 * ky_T / ky_T) * 20 = (40 : ℝ) := by
    rw [mul_div_assoc, div_self hne]
    norm_num
  have hN : N_ky ky_T ky_T = 41 := by
    rw [N_ky_high (lt_irrefl ky_T), harg]
    norm_num
    decide
  have hKy : ∀ i : ℕ, Ky ky_T ky_T i = linspace (-ky_T) ky_T 41 i := by
    intro i
    simp only [Ky, lt_irrefl, if_false, hN]
  refine ⟨hN, ?_, ?_, hKy⟩
  · rw [hKy 0, linspace_zero]
  · rw [hKy 40]
    have := linspace_last (-ky_T) ky_T 41 (by norm_num)
    simpa using this

/-- C4 witness: instantiation at ky_T = 1; the hypothesis 0 < 1 holds. -/
theorem ky_grid_boundary_case_witness :
    (0 : ℝ) < 1 ∧
    (N_ky 1 1 = 41 ∧ Ky 1 1 0 = -1 ∧ Ky 1 1 40 = 1 ∧
      ∀ i : ℕ, Ky 1 1 i = linspace (-1) 1 41 i) :=
  ⟨zero_lt_one, ky_grid_boundary_case 1 zero_lt_one⟩

/-- C10: for every strictly positive half span d and every non-negative
ky_crit, the realized grid has at least 41 points (so the accesses Ky[0] and
Ky[1] are in bounds) and the bin width dky = Ky[1] - Ky[0] is strictly
positive. -/
theorem ky_grid_min_size_dky_pos (d ky_crit : ℝ) (hd : 0 < d)
    (hc : 0 ≤ ky_crit) :
    41 ≤ N_ky ky_crit (ky_T_of d) ∧ 0 < dky ky_crit (ky_T_of d) := by
  have hT : 0 < ky_T_of d := by
    unfold ky_T_of
    positivity
  by_cases h : ky_crit < ky_T_of d
  · have hN : N_ky ky_crit (ky_T_of d) = 41 := N_ky_low h
    constructor
    · omega
    · rw [dky_eq, if_pos h, hN]
      positivity
  · have hN41 : 41 ≤ N_ky ky_crit (ky_T_of d) := N_ky_high_ge_41 hT h
    have hcpos : 0 < ky_crit := lt_of_lt_of_le hT (not_lt.mp h)
    refine ⟨hN41, ?_⟩
    rw [dky_eq, if_neg h]
    have hNcast : (41 : ℝ) ≤ (N_ky ky_crit (ky_T_of d) : ℝ) := by
      exact_mod_cast hN41
    have : (0 : ℝ) < (N_ky ky_crit (ky_T_of d) : ℝ) - 1 := by linarith
    positivity

/-- C10 witness: instantiation at d = 1, ky_crit = 0; the hypotheses 0 < 1
and 0 <= 0 hold. -/
theorem ky_grid_min_size_dky_pos_witness :
    ((0 : ℝ) < 1 ∧ (0 : ℝ) ≤ 0) ∧
    (41 ≤ N_ky 0 (ky_T_of 1) ∧ 0 < dky 0 (ky_T_of 1)) :=
  ⟨⟨zero_lt_one, le_refl 0⟩, ky_grid_min_size_dky_pos 1 0 zero_lt_one (le_refl 0)⟩

/-! ### Operating frequency (claim C9) -/

lemma ten_f0_eq : 10 * f0 = 1700 / (0.3 * Real.pi) := by
  have hpi : Real.pi ≠ 0 := Real.pi_ne_zero
  unfold f0 kc c0 b
  field_simp
  ring

lemma ten_f0_bounds : (1803.5 : ℝ) ≤ 10 * f0 ∧ 10 * f0 < 1804.5 := by
  have h1 : (3.141592 : ℝ) < Real.pi := Real.pi_gt_d6
  have h2 : Real.pi < 3.141593 := Real.pi_lt_d6
  have hpos : (0 : ℝ) < 0.3 * Real.pi := by positivity
  constructor
  · rw [ten_f0_eq, le_div_iff₀ hpos]
    nlinarith
  · rw [ten_f0_eq, div_lt_iff₀ hpos]
    nlinarith

lemma round_ten_f0 : round (10 * f0) = 1804 := by
  have h := ten_f0_bounds
  rw [round_eq, Int.floor_eq_iff]
  push_cast
  constructor <;> linarith [h.1, h.2]

/-- C9 counterexample: the operating frequency f0 = kc*c0/(2*pi*(2*b)) does
NOT equal 180.6 Hz to one-decimal rounding (round(10*f0) is not 1806). -/
theorem f0_not_180_6 : round (10 * f0) ≠ 1806 := by
  rw [round_ten_f0]
  decide

/-- C9 amended: the operating frequency is approximately 180.4 Hz, i.e.
f0 equals 180.4 Hz to one-decimal rounding (round(10*f0) = 1804). -/
theorem f0_rounds_to_180_4 : round (10 * f0) = 1804 := round_ten_f0

/-! ### Gust loop embedding

The loop body of the script, per gust index kyi: the external solver
returns the pressure-jump vector; after the dx and dy reweighting this is
the vector delta_p1_calc, treated here as an arbitrary complex vector per
gust.  Sqq is its outer product with its own conjugate scaled by Ux and
dky; the two Green function matrices are recomputed by dipole3D on
loop-invariant arguments, and real(diag(G Sqq G^H))*4*pi is added to the
corresponding accumulator. -/

/-- coordinate axis labels; the script passes the characters z (dipole
axis) and x (flow direction) to dipole3D. -/
inductive Axis
  | xAxis
  | yAxis
  | zAxis
deriving DecidableEq

/-- the argument tuple the script passes to the external dipole3D function:
mesh coordinates, observer coordinates, acoustic wavenumber, dipole axis and
flow parameters.  Every field is invariant across the gust loop. -/
structure DipoleArgs (Nm Mo : ℕ) where
  mesh : Fin 3 → Fin Nm → ℝ
  obs : Fin 3 → Fin Mo → ℝ
  k0 : ℝ
  dipole_axis : Axis
  flow_param : Axis × ℝ

/-- per-gust surface covariance matrix of the script:
Sqq = np.outer(delta_p1_calc, delta_p1_calc.conj()) * Ux * dky. -/
noncomputable def Sqq {Nm : ℕ} (dk : ℝ) (v : Fin Nm → ℂ) :
    Matrix (Fin Nm) (Fin Nm) ℂ :=
  Matrix.of fun i j => v i * star (v j) * (Ux : ℂ) * (dk : ℂ)

/-- the per-observer contribution of one gust:
np.real(np.diag(G @ Sqq @ H(G))) * 4 * np.pi. -/
noncomputable def gustTerm {Nm Mo : ℕ} (dk : ℝ)
    (G : Matrix (Fin Mo) (Fin Nm) ℂ) (v : Fin Nm → ℂ) (m : Fin Mo) : ℝ :=
  (Matrix.diag (G * Sqq dk v * Gᴴ) m).re * 4 * Real.pi

/-- the gust accumulation loop as written in the script: both accumulators
start at zero, and at every iteration the two Green function matrices are
recomputed by calling dipole3D on the same loop-invariant arguments before
the contribution of gust n is added.  Result: the pair
(Spp_Xdir, Spp_Ydir) after n gusts. -/
noncomputable def gustLoop {Nm Mo : ℕ} (dk : ℝ)
    (dipole3D : DipoleArgs Nm Mo → Matrix (Fin Mo) (Fin Nm) ℂ)
    (argsX argsY : DipoleArgs Nm Mo) (delta_p1_calc : ℕ → Fin Nm → ℂ) :
    ℕ → (Fin Mo → ℂ) × (Fin Mo → ℂ)
  | 0 => (fun _ => 0, fun _ => 0)
  | n + 1 =>
      let prev := gustLoop dk dipole3D argsX argsY delta_p1_calc n
      let G_Xdir := dipole3D argsX
      let G_Ydir := dipole3D argsY
      (fun m => prev.1 m + ((gustTerm dk G_Xdir (delta_p1_calc n) m : ℝ) : ℂ),
       fun m => prev.2 m + ((gustTerm dk G_Ydir (delta_p1_calc n) m : ℝ) : ℂ))

/-- gust accumulation with a fixed, precomputed Green function matrix. -/
noncomputable def accumFixed {Nm Mo : ℕ} (dk : ℝ)
    (G : Matrix (Fin Mo) (Fin Nm) ℂ) (vf : ℕ → Fin Nm → ℂ) :
    ℕ → Fin Mo → ℂ
  | 0 => fun _ => 0
  | n + 1 => fun m =>
      accumFixed dk G vf n m + ((gustTerm dk G (vf n) m : ℝ) : ℂ)

/-- the restructured loop: both Green function matrices are computed once
before the loop and reused read-only across all gusts. -/
noncomputable def gustLoopHoisted {Nm Mo : ℕ} (dk : ℝ)
    (dipole3D : DipoleArgs Nm Mo → Matrix (Fin Mo) (Fin Nm) ℂ)
    (argsX argsY : DipoleArgs Nm Mo) (vf : ℕ → Fin Nm → ℂ) (n : ℕ) :
    (Fin Mo → ℂ) × (Fin Mo → ℂ) :=
  let G_Xdir := dipole3D argsX
  let G_Ydir := dipole3D argsY
  (accumFixed dk G_Xdir vf n, accumFixed dk G_Ydir vf n)

lemma gustLoop_eq_accumFixed {Nm Mo : ℕ} (dk : ℝ)
    (dipole3D : DipoleArgs Nm Mo → Matrix (Fin Mo) (Fin Nm) ℂ)
    (argsX argsY : DipoleArgs Nm Mo) (vf : ℕ → Fin Nm → ℂ) (n : ℕ) :
    gustLoop dk dipole3D argsX argsY vf n =
      (accumFixed dk (dipole3D argsX) vf n,
       accumFixed dk (dipole3D argsY) vf n) := by
  induction n with
  | zero => rfl
  | succ n ih =>
      simp only [gustLoop, accumFixed, ih]

/-! ### Core algebraic identity: the diagonal of G Sqq G^H -/

lemma mul_Sqq_mul_conjTranspose_diag {Nm Mo : ℕ} (dk : ℝ)
    (G : Matrix (Fin Mo) (Fin Nm) ℂ) (v : Fin Nm → ℂ) (m : Fin Mo) :
    (G * Sqq dk v * Gᴴ) m m =
      ((Ux * dk * Complex.normSq (∑ i, G m i * v i) : ℝ) : ℂ) := by
  have expand : (G * Sqq dk v * Gᴴ) m m =
      ∑ k, ∑ i, G m i * (v i * star (v k) * (Ux : ℂ) * (dk : ℂ)) * star (G m k) := by
    simp [Matrix.mul_apply, Matrix.conjTranspose_apply, Sqq, Finset.sum_mul]
  rw [expand, Finset.sum_comm]
  have rhs : (∑ i, ∑ k, G m i * (v i * star (v k) * (Ux : ℂ) * (dk : ℂ)) * star (G m k))
      = ((Ux : ℂ) * (dk : ℂ)) *
        ((∑ i, G m i * v i) * (∑ k, star (v k) * star (G m k))) := by
    rw [Finset.sum_mul_sum]
    simp only [Finset.mul_sum]
    exact Finset.sum_congr rfl fun i _ => Finset.sum_congr rfl fun k _ => by ring
  rw [rhs]
  have conj_sum : (∑ k, star (v k) * star (G m k)) = star (∑ k, G m k * v k) := by
    rw [star_sum]
    exact Finset.sum_congr rfl fun k _ => by rw [star_mul]
  rw [conj_sum]
  have hmc : (∑ i, G m i * v i) * star (∑ i, G m i * v i) =
      ((Complex.normSq (∑ i, G m i * v i) : ℝ) : ℂ) :=
    Complex.mul_conj _
  rw [hmc]
  push_cast
  ring

lemma gustTerm_eq {Nm Mo : ℕ} (dk : ℝ) (G : Matrix (Fin Mo) (Fin Nm) ℂ)
    (v : Fin Nm → ℂ) (m : Fin Mo) :
    gustTerm dk G v m =
      Ux * dk * Complex.normSq (∑ i, G m i * v i) * 4 * Real.pi := by
  unfold gustTerm
  rw [Matrix.diag_apply, mul_Sqq_mul_conjTranspose_diag]
  simp

lemma gustTerm_nonneg {Nm Mo : ℕ} {dk : ℝ} (hdk : 0 ≤ dk)
    (G : Matrix (Fin Mo) (Fin Nm) ℂ) (v : Fin Nm → ℂ) (m : Fin Mo) :
    0 ≤ gustTerm dk G v m := by
  rw [gustTerm_eq]
  have h1 : (0 : ℝ) ≤ Ux := by norm_num [Ux]
  have h2 : 0 ≤ Complex.normSq (∑ i, G m i * v i) := Complex.normSq_nonneg _
  exact mul_nonneg
    (mul_nonneg (mul_nonneg (mul_nonneg h1 hdk) h2) (by norm_num)) Real.pi_nonneg

lemma accumFixed_re_nonneg {Nm Mo : ℕ} {dk : ℝ} (hdk : 0 ≤ dk)
    (G : Matrix (Fin Mo) (Fin Nm) ℂ) (vf : ℕ → Fin Nm → ℂ) (n : ℕ) (m : Fin Mo) :
    0 ≤ (accumFixed dk G vf n m).re := by
  induction n with
  | zero => simp [accumFixed]
  | succ n ih =>
      simp only [accumFixed, Complex.add_re, Complex.ofReal_re]
      have h2 := gustTerm_nonneg hdk G (vf n) m
      linarith

lemma accumFixed_im_zero {Nm Mo : ℕ} (dk : ℝ)
    (G : Matrix (Fin Mo) (Fin Nm) ℂ) (vf : ℕ → Fin Nm → ℂ) (n : ℕ) (m : Fin Mo) :
    (accumFixed dk G vf n m).im = 0 := by
  induction n with
  | zero => simp [accumFixed]
  | succ n ih =>
      simp [accumFixed, Complex.add_im, Complex.ofReal_im, ih]

/-! ### Claims about the loop -/

/-- C6: treating dipole3D as a pure function, recomputing the two Green
function matrices inside the gust loop (as the script does, on arguments
that are invariant across iterations) produces exactly the same accumulated
spectra as computing each matrix once before the loop and reusing it. -/
theorem green_recompute_eq_hoisted {Nm Mo : ℕ} (dk : ℝ)
    (dipole3D : DipoleArgs Nm Mo → Matrix (Fin Mo) (Fin Nm) ℂ)
    (argsX argsY : DipoleArgs Nm Mo) (vf : ℕ → Fin Nm → ℂ) (n : ℕ) :
    gustLoop dk dipole3D argsX argsY vf n =
      gustLoopHoisted dk dipole3D argsX argsY vf n :=
  gustLoop_eq_accumFixed dk dipole3D argsX argsY vf n

/-- C1: for every number of gusts n, every entry of each observer-set
accumulator is non-negative (non-negative real part and zero imaginary
part), and before the first gust both accumulators are all zeros; for
arbitrary pressure-jump vectors and Green function matrices, given
dky > 0 (and Ux = 60 > 0). -/
theorem spp_accumulators_nonneg {Nm Mo : ℕ} (dk : ℝ)
    (dipole3D : DipoleArgs Nm Mo → Matrix (Fin Mo) (Fin Nm) ℂ)
    (argsX argsY : DipoleArgs Nm Mo) (vf : ℕ → Fin Nm → ℂ)
    (hdk : 0 < dk) :
    gustLoop dk dipole3D argsX argsY vf 0 =
      (fun _ => (0 : ℂ), fun _ => (0 : ℂ)) ∧
    ∀ n m,
      0 ≤ ((gustLoop dk dipole3D argsX argsY vf n).1 m).re ∧
      ((gustLoop dk dipole3D argsX argsY vf n).1 m).im = 0 ∧
      0 ≤ ((gustLoop dk dipole3D argsX argsY vf n).2 m).re ∧
      ((gustLoop dk dipole3D argsX argsY vf n).2 m).im = 0 := by
  refine ⟨rfl, fun n m => ?_⟩
  rw [gustLoop_eq_accumFixed]
  exact ⟨accumFixed_re_nonneg hdk.le _ vf n m,
    accumFixed_im_zero dk _ vf n m,
    accumFixed_re_nonneg hdk.le _ vf n m,
    accumFixed_im_zero dk _ vf n m⟩

/-- a concrete dipole3D argument tuple, used to instantiate witnesses. -/
noncomputable def argsOne : DipoleArgs 1 1 :=
  ⟨fun _ _ => 0, fun _ _ => 0, 0, Axis.zAxis, (Axis.xAxis, 0)⟩

/-- C1 witness: instantiation at dky = 1, a one-point mesh and one observer,
the constant-one Green function matrix and constant-one pressure vectors;
the hypothesis 0 < 1 holds. -/
theorem spp_accumulators_nonneg_witness :
    (0 : ℝ) < 1 ∧
    (gustLoop 1 (fun _ => (1 : Matrix (Fin 1) (Fin 1) ℂ)) argsOne argsOne
        (fun _ _ => 1) 0 = (fun _ => (0 : ℂ), fun _ => (0 : ℂ)) ∧
      ∀ n m,
        0 ≤ ((gustLoop 1 (fun _ => (1 : Matrix (Fin 1) (Fin 1) ℂ)) argsOne argsOne
          (fun _ _ => 1) n).1 m).re ∧
        ((gustLoop 1 (fun _ => (1 : Matrix (Fin 1) (Fin 1) ℂ)) argsOne argsOne
          (fun _ _ => 1) n).1 m).im = 0 ∧
        0 ≤ ((gustLoop 1 (fun _ => (1 : Matrix (Fin 1) (Fin 1) ℂ)) argsOne argsOne
          (fun _ _ => 1) n).2 m).re ∧
        ((gustLoop 1 (fun _ => (1 : Matrix (Fin 1) (Fin 1) ℂ)) argsOne argsOne
          (fun _ _ => 1) n).2 m).im = 0) :=
  ⟨zero_lt_one,
    spp_accumulators_nonneg 1 (fun _ => (1 : Matrix (Fin 1) (Fin 1) ℂ))
      argsOne argsOne (fun _ _ => 1) zero_lt_one⟩

/-- C5: the integrator keeps one accumulator per observer set, both
initialized to all zeros before the first gust, and every value stored in
either accumulator during and after the loop has zero imaginary part. -/
theorem spp_accumulators_real {Nm Mo : ℕ} (dk : ℝ)
    (dipole3D : DipoleArgs Nm Mo → Matrix (Fin Mo) (Fin Nm) ℂ)
    (argsX argsY : DipoleArgs Nm Mo) (vf : ℕ → Fin Nm → ℂ) :
    gustLoop dk dipole3D argsX argsY vf 0 =
      (fun _ => (0 : ℂ), fun _ => (0 : ℂ)) ∧
    ∀ n m,
      ((gustLoop dk dipole3D argsX argsY vf n).1 m).im = 0 ∧
      ((gustLoop dk dipole3D argsX argsY vf n).2 m).im = 0 := by
  refine ⟨rfl, fun n m => ?_⟩
  rw [gustLoop_eq_accumFixed]
  exact ⟨accumFixed_im_zero dk _ vf n m, accumFixed_im_zero dk _ vf n m⟩

/-- C2: for every gust, the surface covariance matrix
Sqq = outer(v, conj v) * Ux * dky is Hermitian and positive semi-definite,
for every complex pressure-jump vector v, given dky > 0 (and Ux = 60 > 0). -/
theorem sqq_hermitian_posSemidef {Nm : ℕ} (dk : ℝ) (v : Fin Nm → ℂ)
    (hdk : 0 < dk) :
    (Sqq dk v).IsHermitian ∧ (Sqq dk v).PosSemidef := by
  have herm : (Sqq dk v).IsHermitian := by
    show (Sqq dk v)ᴴ = Sqq dk v
    ext i j
    simp only [Matrix.conjTranspose_apply, Sqq, Matrix.of_apply, star_mul,
      star_star, Complex.star_def, Complex.conj_ofReal, Complex.conj_conj]
    ring
  refine ⟨herm, herm, fun x => ?_⟩
  have key : Matrix.dotProduct (star x) (Sqq dk v *ᵥ x) =
      ((Ux * dk * Complex.normSq (∑ i, star (x i) * v i) : ℝ) : ℂ) := by
    have expand : Matrix.dotProduct (star x) (Sqq dk v *ᵥ x) =
        ∑ i, ∑ j, star (x i) * (v i * star (v j) * (Ux : ℂ) * (dk : ℂ) * x j) := by
      simp [Matrix.dotProduct, Matrix.mulVec, Sqq, Finset.mul_sum]
    rw [expand]
    have rhs : (∑ i, ∑ j, star (x i) * (v i * star (v j) * (Ux : ℂ) * (dk : ℂ) * x j))
        = ((Ux : ℂ) * (dk : ℂ)) *
          ((∑ i, star (x i) * v i) * (∑ j, star (v j) * x j)) := by
      rw [Finset.sum_mul_sum]
      simp only [Finset.mul_sum]
      exact Finset.sum_congr rfl fun i _ => Finset.sum_congr rfl fun j _ => by ring
    rw [rhs]
    have conj_sum : (∑ j, star (v j) * x j) = star (∑ j, star (x j) * v j) := by
      rw [star_sum]
      exact Finset.sum_congr rfl fun j _ => by rw [star_mul, star_star]
    rw [conj_sum]
    have hmc : (∑ i, star (x i) * v i) * star (∑ i, star (x i) * v i) =
        ((Complex.normSq (∑ i, star (x i) * v i) : ℝ) : ℂ) :=
      Complex.mul_conj _
    rw [hmc]
    push_cast
    ring
  rw [key]
  rw [Complex.le_def]
  constructor
  · simp only [Complex.zero_re, Complex.ofReal_re]
    have h1 : (0 : ℝ) ≤ Ux := by norm_num [Ux]
    exact mul_nonneg (mul_nonneg h1 hdk.le) (Complex.normSq_nonneg _)
  · simp [Complex.ofReal_im]

/-- C2 witness: instantiation at dky = 1 and the constant-one pressure
vector on a one-point mesh; the hypothesis 0 < 1 holds. -/
theorem sqq_hermitian_posSemidef_witness :
    (0 : ℝ) < 1 ∧
    ((Sqq 1 (fun _ : Fin 1 => 1)).IsHermitian ∧
      (Sqq 1 (fun _ : Fin 1 => 1)).PosSemidef) :=
  ⟨zero_lt_one, sqq_hermitian_posSemidef 1 (fun _ => 1) zero_lt_one⟩

/-- C7: the bin width used as integration weight is computed from the
realized grid, dky = Ky[1] - Ky[0]; for the uniform grids of both regimes
it equals (upper endpoint - lower endpoint)/(N_ky - 1); and it is exactly
the factor (together with Ux) scaling the per-gust covariance matrix. -/
theorem dky_from_realized_grid (ky_crit ky_T : ℝ) :
    dky ky_crit ky_T = Ky ky_crit ky_T 1 - Ky ky_crit ky_T 0 ∧
    (ky_crit < ky_T →
      dky ky_crit ky_T = (ky_T - -ky_T) / ((N_ky ky_crit ky_T : ℝ) - 1)) ∧
    (¬ ky_crit < ky_T →
      dky ky_crit ky_T = (ky_crit - -ky_crit) / ((N_ky ky_crit ky_T : ℝ) - 1)) ∧
    ∀ (Nm : ℕ) (v : Fin Nm → ℂ) (i j : Fin Nm),
      Sqq (dky ky_crit ky_T) v i j =
        v i * star (v j) * (Ux : ℂ) * ((dky ky_crit ky_T : ℝ) : ℂ) := by
  refine ⟨rfl, ?_, ?_, fun Nm v i j => rfl⟩
  · intro h
    rw [dky_eq, if_pos h]
    ring_nf
  · intro h
    rw [dky_eq, if_neg h]
    ring_nf

/-- the normalization block of the script: the maximum computed from the
two accumulators is assigned to Spp_max and immediately overwritten by the
literal 4.296e-8 before the normalized spectra are formed. -/
noncomputable def normalizedSpectra {Mo : ℕ} (computed_max : ℂ)
    (spp_X spp_Y : Fin Mo → ℂ) : (Fin Mo → ℂ) × (Fin Mo → ℂ) :=
  let Spp_max := computed_max
  let Spp_max := ((4.296e-8 : ℝ) : ℂ)
  (fun m => spp_X m / Spp_max, fun m => spp_Y m / Spp_max)

/-- C8: the normalized directivity arrays equal the accumulated spectra
divided by the hardcoded literal 4.296e-8, for every observer point and
regardless of the maximum previously computed from the spectra, which is
overwritten and never used. -/
theorem normalization_uses_literal {Mo : ℕ} (computed_max : ℂ)
    (spp_X spp_Y : Fin Mo → ℂ) :
    (normalizedSpectra computed_max spp_X spp_Y).1 =
      (fun m => spp_X m / ((4.296e-8 : ℝ) : ℂ)) ∧
    (normalizedSpectra computed_max spp_X spp_Y).2 =
      (fun m => spp_Y m / ((4.296e-8 : ℝ) : ℂ)) ∧
    ∀ other_max : ℂ,
      normalizedSpectra computed_max spp_X spp_Y =
        normalizedSpectra other_max spp_X spp_Y :=
  ⟨rfl, rfl, fun _ => rfl⟩

end AmietTest2
